import Mathlib

/-!
Verification of the genealogy-tree layout and rendering engine of the
Resumaker frontend (src/frontend/components/shared/header.js).

The engine is embedded shallowly: the node objects built by
renderOriginalTree become the structure TNode, the mutable
positionedNodes set / node.x / node.y / maxX state becomes the explicit
record LSt, and the recursive closure positionNodeAndChildren becomes a
fuel-indexed function returning Option (running out of fuel yields none,
so termination is a provable statement rather than an assumption).
Coordinates are rationals: every arithmetic operation performed by the
source (addition, multiplication by small constants, halving, division
by canvas sizes) is exact on the IEEE doubles JavaScript uses at the
magnitudes involved, so ℚ is a faithful carrier.

Date parsing (new Date(s).getTime()) is kept abstract as a parameter
gt : String → ℚ; the source only ever feeds its results to comparisons
inside the child sort.
-/

namespace Resumaker

/-- Card width in pixels, from renderOriginalTree. -/
def cardWidth : ℚ := 200

/-- Card height in pixels, from renderOriginalTree. -/
def cardHeight : ℚ := 85

/-- Vertical gap between a parent row and its children, from renderOriginalTree. -/
def verticalGap : ℚ := 100

/-- Horizontal gap between sibling cards, from renderOriginalTree. -/
def horizontalGap : ℚ := 15

/-- Horizontal indent of the first child relative to its parent, from renderOriginalTree. -/
def childIndent : ℚ := 25

/-- Maximum children per row before staggering kicks in, from positionNodeAndChildren. -/
def maxPerRow : Nat := 4

/-- Horizontal offset applied to each additional staggered row, from positionNodeAndChildren. -/
def staggerOffset : ℚ := 40

/-- One node object as built by renderOriginalTree from the raw tree data.
The fields name, generation, vtype, description and is_hybrid are Options
because the builder can leave them undefined (see buildNode below); the
remaining fields are always defined. -/
structure TNode where
  key : String
  name : Option String
  generation : Option ℚ
  vtype : Option String
  description : Option String
  is_hybrid : Option Bool
  parents : List String
  children : List String
  job_title : String
  job_company : String
  created : String
deriving DecidableEq, Repr

/-- The mutable layout state of renderOriginalTree: the node.x / node.y
fields (as a total map keyed by node key, every node is initialised to
(0, 0)), the positionedNodes set, and the running maxX. -/
structure LSt where
  pos : String → ℚ × ℚ
  positioned : List String
  maxX : ℚ

/-- Write a node's coordinates, modelling an assignment to node.x / node.y. -/
def setPos (p : String → ℚ × ℚ) (k : String) (v : ℚ × ℚ) : String → ℚ × ℚ :=
  fun k2 => if k2 = k then v else p k2

/-- Sort key of a node: `a.created ? new Date(a.created).getTime() : 0`. -/
def createdTime (gt : String → ℚ) (n : TNode) : ℚ :=
  if n.created = "" then 0 else gt n.created

/-- Stable insertion of a node into a list sorted by creation time
descending: the node goes in front of the first element that is not
strictly newer, so it precedes every element of equal time (the element
being inserted always comes from an earlier position of the input). -/
def insertByTime (gt : String → ℚ) (a : TNode) : List TNode → List TNode
  | [] => [a]
  | b :: t =>
    if createdTime gt b > createdTime gt a then b :: insertByTime gt a t else a :: b :: t

/-- The child sort of positionNodeAndChildren:
sort((a, b) => bTime - aTime), i.e. the ECMAScript stable sort by
creation time descending. A stable sort under this comparator has a
unique output — keys descending, ties in encounter order — which this
structurally recursive stable insertion sort produces. -/
def sortByTimeDesc (gt : String → ℚ) : List TNode → List TNode
  | [] => []
  | a :: t => insertByTime gt a (sortByTimeDesc gt t)

/-- The children list computed inside positionNodeAndChildren: all nodes
whose parents contain this node's key and which are not positioned yet,
sorted by creation time descending. -/
def childList (gt : String → ℚ) (nodes : List TNode) (s1 : LSt) (node : TNode) : List TNode :=
  sortByTimeDesc gt
    (nodes.filter fun c => c.parents.contains node.key && !(s1.positioned.contains c.key))

/-- Total width of a staggered child block, from positionNodeAndChildren:
rows = ceil(n / maxPerRow), lastRowItems = n % maxPerRow || maxPerRow,
width = lastRow * staggerOffset + lastRowItems * cardWidth
      + (lastRowItems - 1) * horizontalGap. -/
def staggerTotalWidth (n : Nat) : ℚ :=
  let rows : Nat := (n + maxPerRow - 1) / maxPerRow
  let lastRowItems : Nat := if n % maxPerRow = 0 then maxPerRow else n % maxPerRow
  ((rows - 1 : Nat) : ℚ) * staggerOffset + (lastRowItems : ℚ) * cardWidth +
    ((lastRowItems - 1 : Nat) : ℚ) * horizontalGap

/-- Tail of positionNodeAndChildren once the children are placed: recenter
the node over its children when their total width exceeds the card width,
update maxX, and return the subtree dimensions. -/
def finishNode (st : LSt) (node : TNode) (x : ℚ) (maxChildHeight totalChildWidth : ℚ) :
    LSt × ℚ × ℚ :=
  if totalChildWidth > cardWidth then
    let centerOffset := (totalChildWidth - cardWidth) / 2
    (⟨setPos st.pos node.key (x + centerOffset, (st.pos node.key).2), st.positioned,
        max st.maxX (x + totalChildWidth)⟩,
      max cardWidth totalChildWidth, cardHeight + verticalGap + maxChildHeight)
  else
    (⟨st.pos, st.positioned, max st.maxX (x + cardWidth)⟩,
      max cardWidth totalChildWidth, cardHeight + verticalGap + maxChildHeight)

/-- The staggered children loop of positionNodeAndChildren: child number i
goes to row i / maxPerRow, column i % maxPerRow, at
(childX + row * staggerOffset + col * (cardWidth + horizontalGap),
 childY + row * (cardHeight + 20)); maxChildHeight accumulates
height + row * (cardHeight + 20). The recursive call is abstracted as
recur. -/
def runStagger (recur : LSt → TNode → ℚ → ℚ → Option (LSt × ℚ × ℚ)) (childX childY : ℚ) :
    Nat → List TNode → LSt → ℚ → Option (LSt × ℚ)
  | _, [], st, mch => some (st, mch)
  | i, c :: rest, st, mch =>
    let row : Nat := i / maxPerRow
    let col : Nat := i % maxPerRow
    let rowX := childX + (row : ℚ) * staggerOffset + (col : ℚ) * (cardWidth + horizontalGap)
    let rowY := childY + (row : ℚ) * (cardHeight + 20)
    match recur st c rowX rowY with
    | none => none
    | some r =>
      runStagger recur childX childY (i + 1) rest r.1
        (max mch (r.2.2 + (row : ℚ) * (cardHeight + 20)))

/-- The normal (at most maxPerRow children) loop of positionNodeAndChildren:
children are placed left to right at the running childX, which advances by
the returned width plus horizontalGap; totalChildWidth accumulates the
widths plus a gap for every child except the last. Returns
(state, totalChildWidth, maxChildHeight). -/
def runNormal (recur : LSt → TNode → ℚ → ℚ → Option (LSt × ℚ × ℚ)) (childY : ℚ) (total : Nat) :
    Nat → List TNode → LSt → ℚ → ℚ → ℚ → Option (LSt × ℚ × ℚ)
  | _, [], st, _, tcw, mch => some (st, tcw, mch)
  | i, c :: rest, st, cx, tcw, mch =>
    match recur st c cx childY with
    | none => none
    | some r =>
      runNormal recur childY total (i + 1) rest r.1 (cx + r.2.1 + horizontalGap)
        (tcw + r.2.1 + (if i < total - 1 then horizontalGap else 0)) (max mch r.2.2)

/-- The recursive placement function positionNodeAndChildren, with an
explicit fuel argument: none models non-termination within the given
recursion budget. A node already in positionedNodes returns immediately
with dimensions (0, 0); otherwise the node is placed at (x, y) and marked
positioned before its children are laid out. The unused parentWidth
parameter of the source is omitted. Returns (state, width, height). -/
def positionNodeAndChildren (gt : String → ℚ) (nodes : List TNode) :
    Nat → LSt → TNode → ℚ → ℚ → Option (LSt × ℚ × ℚ)
  | 0, _, _, _, _ => none
  | Nat.succ fuel, s, node, x, y =>
    if node.key ∈ s.positioned then some (s, 0, 0) else
    let s1 : LSt := ⟨setPos s.pos node.key (x, y), node.key :: s.positioned, s.maxX⟩
    let children := childList gt nodes s1 node
    if children.length = 0 then
      some (⟨s1.pos, s1.positioned, max s1.maxX (x + cardWidth)⟩, cardWidth, cardHeight)
    else
      let childX := x + childIndent
      let childY := y + verticalGap
      if children.length > maxPerRow then
        match runStagger (positionNodeAndChildren gt nodes fuel) childX childY 0 children s1 0 with
        | none => none
        | some r => some (finishNode r.1 node x r.2 (staggerTotalWidth children.length))
      else
        match runNormal (positionNodeAndChildren gt nodes fuel) childY children.length
            0 children s1 childX 0 0 with
        | none => none
        | some r => some (finishNode r.1 node x r.2.2 r.2.1)

/-- One iteration of the root placement loop of renderOriginalTree: lay
out a root's subtree at the current root cursor and advance the cursor by
the subtree width plus horizontalGap * 2. -/
def rootStep (gt : String → ℚ) (nodes : List TNode) (acc : Option (LSt × ℚ)) (root : TNode) :
    Option (LSt × ℚ) :=
  acc.bind fun sr =>
    (positionNodeAndChildren gt nodes (nodes.length + 1) sr.1 root sr.2 20).map fun r =>
      (r.1, sr.2 + r.2.1 + horizontalGap * 2)

/-- The root placement loop of renderOriginalTree: roots (nodes with an
empty parents list) are laid out left to right starting at rootX = 20,
currentY = 20. Returns the state and the final rootX. -/
def rootsPass (gt : String → ℚ) (nodes : List TNode) : Option (LSt × ℚ) :=
  let rootNodes := nodes.filter fun n => n.parents.isEmpty
  rootNodes.foldl (rootStep gt nodes) (some (⟨fun _ => (0, 0), [], 0⟩, 20))

/-- The orphan placement loop of renderOriginalTree: every node still
unpositioned after the root pass is placed at
(rootX + i * (cardWidth + horizontalGap), currentY = 20) in encounter
order. maxX is not updated here, exactly as in the source. -/
def placeOrphans (rootX : ℚ) : Nat → List TNode → LSt → LSt
  | _, [], st => st
  | i, n :: rest, st =>
    placeOrphans rootX (i + 1) rest
      ⟨setPos st.pos n.key (rootX + (i : ℚ) * (cardWidth + horizontalGap), 20),
        n.key :: st.positioned, st.maxX⟩

/-- Maximum of a list of rationals, modelling Math.max(...) on a nonempty
spread; the source only applies it to the nonempty node list (an empty
argument list would give -Infinity in JavaScript, which has no rational
counterpart, so this definition is only used under nonempty inputs). -/
def jsMax : List ℚ → ℚ
  | [] => 0
  | [a] => a
  | a :: b :: t => max a (jsMax (b :: t))

/-- Result of the layout section of renderOriginalTree: final coordinates,
the final and the pre-orphan positioned sets, maxX, the root cursor after
the root pass, and the canvas size
(canvasWidth = maxX + 40, canvasHeight = max y + cardHeight + 40). -/
structure Layout where
  pos : String → ℚ × ℚ
  positioned : List String
  rootPositioned : List String
  maxX : ℚ
  rootX : ℚ
  canvasWidth : ℚ
  canvasHeight : ℚ

/-- The layout part of renderOriginalTree: root pass, orphan pass, canvas
size computation. -/
def renderTreeLayout (gt : String → ℚ) (nodes : List TNode) : Option Layout :=
  (rootsPass gt nodes).map fun sr =>
    let s := sr.1
    let rootX := sr.2
    let orphaned := nodes.filter fun n => !(s.positioned.contains n.key)
    let s2 := placeOrphans rootX 0 orphaned s
    let canvasWidth := s2.maxX + 40
    let maxY := jsMax (nodes.map fun n => (s2.pos n.key).2)
    let canvasHeight := maxY + cardHeight + 40
    ⟨s2.pos, s2.positioned, s.positioned, s2.maxX, rootX, canvasWidth, canvasHeight⟩

/-- One connecting line produced by createConnectionLines: endpoints and
whether it carries the hybrid styling class. -/
structure CLine where
  x1 : ℚ
  y1 : ℚ
  x2 : ℚ
  y2 : ℚ
  hybrid : Bool
deriving DecidableEq, Repr

/-- Lookup in the nodeMap object built by renderOriginalTree; keys coming
from Object.keys are unique, so first match equals the object entry. -/
def nodeMapFind (nodes : List TNode) (k : String) : Option TNode :=
  nodes.find? fun n => n.key = k

/-- The line from a parent card to a child card, from createConnectionLines:
bottom-center of the parent to top-center of the child, dashed hybrid
styling exactly when node.is_hybrid is truthy. -/
def lineFor (pos : String → ℚ × ℚ) (parent node : TNode) : CLine :=
  ⟨(pos parent.key).1 + cardWidth / 2, (pos parent.key).2 + cardHeight,
    (pos node.key).1 + cardWidth / 2, (pos node.key).2, node.is_hybrid.getD false⟩

/-- createConnectionLines: for every node, for every entry of its parents
list that resolves through nodeMap, push one line. The nested forEach
loops are modelled as folds that append in iteration order. -/
def createConnectionLines (nodes : List TNode) (pos : String → ℚ × ℚ) : List CLine :=
  nodes.foldl
    (fun lines node =>
      if node.parents.length > 0 then
        lines ++ node.parents.foldl
          (fun acc parentKey =>
            match nodeMapFind nodes parentKey with
            | some parent => acc ++ [lineFor pos parent node]
            | none => acc)
          []
      else lines)
    []

/-- The per-(node, resolving parent entry) line list, used to characterise
createConnectionLines. -/
def nodeLines (nodes : List TNode) (pos : String → ℚ × ℚ) (node : TNode) : List CLine :=
  node.parents.filterMap fun pk => (nodeMapFind nodes pk).map fun parent => lineFor pos parent node

/-- The data of one rendered card that depends on layout or time: its key,
its absolute position, and whether it carries the recent highlight. -/
structure Card where
  key : String
  x : ℚ
  y : ℚ
  recent : Bool
deriving DecidableEq, Repr

/-- isRecentlyCreated: false for an empty created string, otherwise true
when now minus the creation time is below seven days in milliseconds. -/
def isRecentlyCreated (gt : String → ℚ) (now : ℚ) (created : String) : Bool :=
  if created = "" then false else decide (now - gt created < 7 * 24 * 60 * 60 * 1000)

/-- The card layer of renderOriginalTree: one card per node, at the node's
computed coordinates. -/
def createCards (gt : String → ℚ) (now : ℚ) (nodes : List TNode) (pos : String → ℚ × ℚ) :
    List Card :=
  nodes.map fun n => ⟨n.key, (pos n.key).1, (pos n.key).2, isRecentlyCreated gt now n.created⟩

/-- The attribute bag nested under the info key of a raw tree entry; every
field may be absent. -/
structure RawInfo where
  name : Option String
  generation : Option ℚ
  vtype : Option String
  description : Option String
  is_hybrid : Option Bool
  parents : Option (List String)
  job_title : Option String
  job_company : Option String
  created : Option String
deriving DecidableEq, Repr

/-- One raw tree entry as delivered by the backend: fields may appear
flattened or nested under info, and any of them may be absent. -/
structure RawData where
  info : Option RawInfo
  name : Option String
  generation : Option ℚ
  vtype : Option String
  description : Option String
  is_hybrid : Option Bool
  parents : Option (List String)
  children : Option (List String)
  job_title : Option String
  job_company : Option String
  created : Option String
deriving DecidableEq, Repr

/-- JavaScript truthy-or on an optional string: an absent or empty string
falls back to the default. -/
def jsOrStr (v : Option String) (d : String) : String :=
  match v with
  | some s => if s = "" then d else s
  | none => d

/-- JavaScript truthy-or on an optional number: absent or zero falls back
to the default. -/
def jsOrNum (v : Option ℚ) (d : ℚ) : ℚ :=
  match v with
  | some q => if q = 0 then d else q
  | none => d

/-- JavaScript truthy-or on an optional boolean: absent or false falls
back to the default. -/
def jsOrBool (v : Option Bool) (d : Bool) : Bool :=
  match v with
  | some b => if b then b else d
  | none => d

/-- The node construction of renderOriginalTree (the graph model builder):
each field is data.info ? data.info.field : (data.field || default),
with the info branch applying || defaults only to parents, job_title,
job_company and created; name, generation, type, description and
is_hybrid are taken from info as-is and may be left undefined. -/
def buildNode (key : String) (data : RawData) : TNode :=
  { key := key
    name :=
      match data.info with
      | some i => i.name
      | none => some (jsOrStr data.name key)
    generation :=
      match data.info with
      | some i => i.generation
      | none => some (jsOrNum data.generation 0)
    vtype :=
      match data.info with
      | some i => i.vtype
      | none => some (jsOrStr data.vtype "Unknown")
    description :=
      match data.info with
      | some i => i.description
      | none => some (jsOrStr data.description "")
    is_hybrid :=
      match data.info with
      | some i => i.is_hybrid
      | none => some (jsOrBool data.is_hybrid false)
    parents :=
      match data.info with
      | some i => i.parents.getD []
      | none => data.parents.getD []
    children := data.children.getD []
    job_title :=
      match data.info with
      | some i => jsOrStr i.job_title ""
      | none => jsOrStr data.job_title ""
    job_company :=
      match data.info with
      | some i => jsOrStr i.job_company ""
      | none => jsOrStr data.job_company ""
    created :=
      match data.info with
      | some i => jsOrStr i.created ""
      | none => jsOrStr data.created "" }

/-- The minimap viewport rectangle set by updateMinimapViewport. -/
structure ViewportRect where
  left : ℚ
  top : ℚ
  width : ℚ
  height : ℚ
deriving DecidableEq, Repr

/-- updateMinimapViewport as a pure function of the scroll offset, the
main view's client size, the minimap's displayed size and the canvas
size: scaleX = minimapWidth / canvasWidth, scaleY = minimapHeight /
canvasHeight, and the rectangle is the scroll offset and client size
scaled by those per-axis factors. The guard on a missing or zero
canvasWidth returns none (the source returns without touching the
viewport). -/
def updateMinimapViewport (scrollLeft scrollTop clientWidth clientHeight
    minimapWidth minimapHeight canvasWidth canvasHeight : ℚ) : Option ViewportRect :=
  if canvasWidth = 0 then none else
  let scaleX := minimapWidth / canvasWidth
  let scaleY := minimapHeight / canvasHeight
  some ⟨scrollLeft * scaleX, scrollTop * scaleY, clientWidth * scaleX, clientHeight * scaleY⟩

/-! ## State-evolution infrastructure for the layout recursion -/

/-- How one layout step may transform the state: the positioned set only
grows, coordinates of already-positioned nodes are untouched, maxX only
grows, and every newly positioned node's card right edge is within the
new maxX. -/
def StRel (s s2 : LSt) : Prop :=
  (∀ k, k ∈ s.positioned → k ∈ s2.positioned) ∧
  (∀ k, k ∈ s.positioned → s2.pos k = s.pos k) ∧
  s.maxX ≤ s2.maxX ∧
  (∀ k, k ∈ s2.positioned → k ∉ s.positioned → (s2.pos k).1 + cardWidth ≤ s2.maxX)

lemma stRel_refl (s : LSt) : StRel s s :=
  ⟨fun _ h => h, fun _ _ => rfl, le_refl _, fun _ hk hk2 => absurd hk hk2⟩

lemma stRel_trans {a b c : LSt} (hab : StRel a b) (hbc : StRel b c) : StRel a c := by
  obtain ⟨m1, p1, x1, e1⟩ := hab
  obtain ⟨m2, p2, x2, e2⟩ := hbc
  refine ⟨fun k hk => m2 k (m1 k hk), fun k hk => (p2 k (m1 k hk)).trans (p1 k hk),
    le_trans x1 x2, fun k hkc hka => ?_⟩
  by_cases hkb : k ∈ b.positioned
  · have := e1 k hkb hka
    rw [p2 k hkb]
    exact le_trans this x2
  · exact e2 k hkc hkb

/-- A recursion step is monotone when every successful call relates input
to output state by StRel. -/
def MonoRec (recur : LSt → TNode → ℚ → ℚ → Option (LSt × ℚ × ℚ)) : Prop :=
  ∀ s n x y r, recur s n x y = some r → StRel s r.1

lemma runStagger_rel {recur} (hm : MonoRec recur) (cx cy : ℚ) :
    ∀ (l : List TNode) (i : Nat) (st : LSt) (mch : ℚ) (out : LSt × ℚ),
      runStagger recur cx cy i l st mch = some out → StRel st out.1 := by
  intro l
  induction l with
  | nil =>
    intro i st mch out h
    simp only [runStagger] at h
    cases h
    exact stRel_refl st
  | cons c rest ih =>
    intro i st mch out h
    simp only [runStagger] at h
    cases hr : recur st c (cx + ((i / maxPerRow : Nat) : ℚ) * staggerOffset +
        ((i % maxPerRow : Nat) : ℚ) * (cardWidth + horizontalGap))
        (cy + ((i / maxPerRow : Nat) : ℚ) * (cardHeight + 20)) with
    | none => rw [hr] at h; exact absurd h (by simp)
    | some r =>
      rw [hr] at h
      exact stRel_trans (hm _ _ _ _ _ hr) (ih _ _ _ _ h)

lemma runNormal_rel {recur} (hm : MonoRec recur) (cy : ℚ) (total : Nat) :
    ∀ (l : List TNode) (i : Nat) (st : LSt) (cx tcw mch : ℚ) (out : LSt × ℚ × ℚ),
      runNormal recur cy total i l st cx tcw mch = some out → StRel st out.1 := by
  intro l
  induction l with
  | nil =>
    intro i st cx tcw mch out h
    simp only [runNormal] at h
    cases h
    exact stRel_refl st
  | cons c rest ih =>
    intro i st cx tcw mch out h
    simp only [runNormal] at h
    cases hr : recur st c cx cy with
    | none => rw [hr] at h; exact absurd h (by simp)
    | some r =>
      rw [hr] at h
      exact stRel_trans (hm _ _ _ _ _ hr) (ih _ _ _ _ _ _ h)

lemma setPos_same (p : String → ℚ × ℚ) (k : String) (v : ℚ × ℚ) : setPos p k v k = v := by
  simp [setPos]

lemma setPos_other (p : String → ℚ × ℚ) (k k2 : String) (v : ℚ × ℚ) (h : k2 ≠ k) :
    setPos p k v k2 = p k2 := by
  simp [setPos, h]

/-- First component of finishNode in the recentering branch. -/
lemma finishNode_fst_big {st : LSt} {node : TNode} {x mch tcw : ℚ} (h : tcw > cardWidth) :
    (finishNode st node x mch tcw).1 =
      ⟨setPos st.pos node.key (x + (tcw - cardWidth) / 2, (st.pos node.key).2), st.positioned,
        max st.maxX (x + tcw)⟩ := by
  simp only [finishNode, if_pos h]

/-- First component of finishNode without recentering. -/
lemma finishNode_fst_small {st : LSt} {node : TNode} {x mch tcw : ℚ} (h : ¬tcw > cardWidth) :
    (finishNode st node x mch tcw).1 = ⟨st.pos, st.positioned, max st.maxX (x + cardWidth)⟩ := by
  simp only [finishNode, if_neg h]

/-- The common tail of positionNodeAndChildren relates the original state
to the finished state, given how the children loop related the
just-extended state to its output. -/
lemma finish_rel {s st : LSt} {node : TNode} {x y mch tcw : ℚ}
    (hnp : node.key ∉ s.positioned)
    (hm1 : ∀ k, k ∈ node.key :: s.positioned → k ∈ st.positioned)
    (hp1 : ∀ k, k ∈ node.key :: s.positioned → st.pos k = setPos s.pos node.key (x, y) k)
    (hx1 : s.maxX ≤ st.maxX)
    (he1 : ∀ k, k ∈ st.positioned → k ∉ node.key :: s.positioned →
      (st.pos k).1 + cardWidth ≤ st.maxX) :
    StRel s (finishNode st node x mch tcw).1 := by
  have hkey : st.pos node.key = (x, y) := by
    rw [hp1 node.key (List.mem_cons_self _ _), setPos_same]
  have hmem : ∀ k, k ∈ s.positioned → k ∈ st.positioned := fun k hk =>
    hm1 k (List.mem_cons_of_mem _ hk)
  have hold : ∀ k, k ∈ s.positioned → st.pos k = s.pos k := by
    intro k hk
    have hne : k ≠ node.key := fun he => hnp (he ▸ hk)
    rw [hp1 k (List.mem_cons_of_mem _ hk), setPos_other _ _ _ _ hne]
  by_cases htc : tcw > cardWidth
  · rw [finishNode_fst_big htc]
    refine ⟨fun k hk => hmem k hk, ?_, ?_, ?_⟩
    · intro k hk
      dsimp only
      have hne : k ≠ node.key := fun he => hnp (he ▸ hk)
      rw [setPos_other _ _ _ _ hne]
      exact hold k hk
    · exact le_trans hx1 (le_max_left _ _)
    · intro k hk2 hk
      dsimp only at hk2 ⊢
      by_cases hke : k = node.key
      · subst hke
        rw [setPos_same, hkey]
        dsimp only
        have : x + (tcw - cardWidth) / 2 + cardWidth ≤ x + tcw := by linarith
        exact le_trans this (le_max_right _ _)
      · rw [setPos_other _ _ _ _ hke]
        have hk1 : k ∉ (node.key :: s.positioned) := by
          intro hc
          rcases List.mem_cons.1 hc with h | h
          · exact hke h
          · exact hk h
        exact le_trans (he1 k hk2 hk1) (le_max_left _ _)
  · rw [finishNode_fst_small htc]
    refine ⟨fun k hk => hmem k hk, fun k hk => hold k hk,
      le_trans hx1 (le_max_left _ _), ?_⟩
    intro k hk2 hk
    dsimp only at hk2 ⊢
    by_cases hke : k = node.key
    · subst hke
      rw [hkey]
      exact le_max_right _ _
    · have hk1 : k ∉ (node.key :: s.positioned) := by
        intro hc
        rcases List.mem_cons.1 hc with h | h
        · exact hke h
        · exact hk h
      exact le_trans (he1 k hk2 hk1) (le_max_left _ _)

/-- Unfolding equation of positionNodeAndChildren at positive fuel. -/
lemma posNC_succ (gt : String → ℚ) (nodes : List TNode) (fuel : Nat) (s : LSt) (node : TNode)
    (x y : ℚ) :
    positionNodeAndChildren gt nodes (fuel + 1) s node x y =
      if node.key ∈ s.positioned then some (s, 0, 0) else
      (let s1 : LSt := ⟨setPos s.pos node.key (x, y), node.key :: s.positioned, s.maxX⟩
       let children := childList gt nodes s1 node
       if children.length = 0 then
         some (⟨s1.pos, s1.positioned, max s1.maxX (x + cardWidth)⟩, cardWidth, cardHeight)
       else
         let childX := x + childIndent
         let childY := y + verticalGap
         if children.length > maxPerRow then
           match runStagger (positionNodeAndChildren gt nodes fuel) childX childY 0
               children s1 0 with
           | none => none
           | some r => some (finishNode r.1 node x r.2 (staggerTotalWidth children.length))
         else
           match runNormal (positionNodeAndChildren gt nodes fuel) childY children.length 0
               children s1 childX 0 0 with
           | none => none
           | some r => some (finishNode r.1 node x r.2.2 r.2.1)) := rfl

/-- Every successful run of positionNodeAndChildren transforms the state
monotonically: positioned only grows, old coordinates are stable, maxX
only grows, and every newly placed card lies left of the new maxX. -/
lemma posNC_mono (gt : String → ℚ) (nodes : List TNode) :
    ∀ fuel, MonoRec (positionNodeAndChildren gt nodes fuel) := by
  intro fuel
  induction fuel with
  | zero =>
    intro s n x y r h
    exact absurd h (by simp [positionNodeAndChildren])
  | succ fuel ih =>
    intro s n x y r h
    rw [posNC_succ] at h
    by_cases hpos : n.key ∈ s.positioned
    · rw [if_pos hpos] at h
      cases h
      exact stRel_refl s
    · rw [if_neg hpos] at h
      simp only at h
      set s1 : LSt := ⟨setPos s.pos n.key (x, y), n.key :: s.positioned, s.maxX⟩ with hs1
      by_cases hcl : (childList gt nodes s1 n).length = 0
      · rw [if_pos hcl] at h
        cases h
        refine ⟨fun k hk => List.mem_cons_of_mem _ hk, ?_, le_max_left _ _, ?_⟩
        · intro k hk
          dsimp only
          have hne : k ≠ n.key := fun he => hpos (he ▸ hk)
          exact setPos_other _ _ _ _ hne
        · intro k hk2 hk
          dsimp only at hk2 ⊢
          have hke : k = n.key := by
            rcases List.mem_cons.1 hk2 with h2 | h2
            · exact h2
            · exact absurd h2 hk
          subst hke
          rw [setPos_same]
          exact le_max_right _ _
      · rw [if_neg hcl] at h
        by_cases hbig : (childList gt nodes s1 n).length > maxPerRow
        · rw [if_pos hbig] at h
          cases hrun : runStagger (positionNodeAndChildren gt nodes fuel) (x + childIndent)
              (y + verticalGap) 0 (childList gt nodes s1 n) s1 0 with
          | none => rw [hrun] at h; exact absurd h (by simp)
          | some rs =>
            rw [hrun] at h
            cases h
            obtain ⟨m1, p1, x1, e1⟩ := runStagger_rel ih _ _ _ _ _ _ _ hrun
            dsimp only at m1 p1 x1 e1
            exact finish_rel hpos m1 p1 x1 e1
        · rw [if_neg hbig] at h
          cases hrun : runNormal (positionNodeAndChildren gt nodes fuel) (y + verticalGap)
              (childList gt nodes s1 n).length 0 (childList gt nodes s1 n) s1
              (x + childIndent) 0 0 with
          | none => rw [hrun] at h; exact absurd h (by simp)
          | some rs =>
            rw [hrun] at h
            cases h
            obtain ⟨m1, p1, x1, e1⟩ := runNormal_rel ih _ _ _ _ _ _ _ _ _ hrun
            dsimp only at m1 p1 x1 e1
            exact finish_rel hpos m1 p1 x1 e1

/-! ## Termination of the layout recursion -/

/-- Number of nodes not yet positioned: the termination measure of the
layout recursion. -/
def unpos (nodes : List TNode) (s : LSt) : Nat :=
  (nodes.filter fun n => !(s.positioned.contains n.key)).length

lemma not_contains_iff (l : List String) (a : String) : (!(l.contains a)) = true ↔ a ∉ l := by
  simp [List.contains]

lemma contains_false_iff (l : List String) (a : String) : (!(l.contains a)) = false ↔ a ∈ l := by
  simp [List.contains]

lemma filter_length_lt {α : Type} (p q : α → Bool) (hpq : ∀ a, p a = true → q a = true) :
    ∀ (l : List α) (a : α), a ∈ l → p a = false → q a = true →
      (l.filter p).length < (l.filter q).length := by
  intro l
  induction l with
  | nil => intro a ha _ _; cases ha
  | cons b t ih =>
    intro a ha hpa hqa
    rcases List.mem_cons.1 ha with rfl | hat
    · rw [List.filter_cons_of_neg (by simp [hpa]), List.filter_cons_of_pos (by simp [hqa])]
      exact Nat.lt_succ_of_le (List.monotone_filter_right t hpq).length_le
    · have hlt := ih a hat hpa hqa
      by_cases hpb : p b = true
      · rw [List.filter_cons_of_pos hpb, List.filter_cons_of_pos (hpq b hpb)]
        simpa using hlt
      · rw [List.filter_cons_of_neg (by simpa using hpb)]
        by_cases hqb : q b = true
        · rw [List.filter_cons_of_pos hqb]
          exact Nat.lt_succ_of_lt hlt
        · rw [List.filter_cons_of_neg (by simpa using hqb)]
          exact hlt

lemma unpos_le_length (nodes : List TNode) (s : LSt) : unpos nodes s ≤ nodes.length :=
  List.length_filter_le _ _

lemma unpos_mono {nodes : List TNode} {s t : LSt}
    (h : ∀ k, k ∈ s.positioned → k ∈ t.positioned) : unpos nodes t ≤ unpos nodes s := by
  refine (List.monotone_filter_right nodes ?_).length_le
  intro a ha
  have ha2 := (not_contains_iff _ _).1 ha
  exact (not_contains_iff _ _).2 fun hk => ha2 (h _ hk)

lemma unpos_strict {nodes : List TNode} {s : LSt} {node : TNode} (hn : node ∈ nodes)
    (hnp : node.key ∉ s.positioned) (p2 : String → ℚ × ℚ) (m2 : ℚ) :
    unpos nodes ⟨p2, node.key :: s.positioned, m2⟩ < unpos nodes s := by
  refine filter_length_lt _ _ ?_ nodes node hn ?_ ?_
  · intro a ha
    have ha2 := (not_contains_iff _ _).1 ha
    exact (not_contains_iff _ _).2 fun hk => ha2 (List.mem_cons_of_mem _ hk)
  · exact (contains_false_iff _ _).2 (List.mem_cons_self _ _)
  · exact (not_contains_iff _ _).2 hnp

/-- A recursion step is total when it succeeds on every node of the graph
whenever the fuel exceeds the number of unpositioned nodes. -/
def TotalRec (nodes : List TNode) (fuel : Nat)
    (recur : LSt → TNode → ℚ → ℚ → Option (LSt × ℚ × ℚ)) : Prop :=
  ∀ st c x y, c ∈ nodes → unpos nodes st < fuel → (recur st c x y).isSome

lemma runStagger_some {nodes : List TNode} {fuel : Nat} {recur} (hm : MonoRec recur)
    (ht : TotalRec nodes fuel recur) (cx cy : ℚ) :
    ∀ (l : List TNode) (i : Nat) (st : LSt) (mch : ℚ), (∀ c ∈ l, c ∈ nodes) →
      unpos nodes st < fuel → (runStagger recur cx cy i l st mch).isSome := by
  intro l
  induction l with
  | nil => intro i st mch _ _; simp [runStagger]
  | cons c rest ih =>
    intro i st mch hsub hu
    simp only [runStagger]
    obtain ⟨r, hr⟩ := Option.isSome_iff_exists.1
      (ht st c (cx + ((i / maxPerRow : Nat) : ℚ) * staggerOffset +
          ((i % maxPerRow : Nat) : ℚ) * (cardWidth + horizontalGap))
        (cy + ((i / maxPerRow : Nat) : ℚ) * (cardHeight + 20))
        (hsub c (List.mem_cons_self _ _)) hu)
    rw [hr]
    exact ih _ _ _ (fun d hd => hsub d (List.mem_cons_of_mem _ hd))
      (lt_of_le_of_lt (unpos_mono (hm _ _ _ _ _ hr).1) hu)

lemma runNormal_some {nodes : List TNode} {fuel : Nat} {recur} (hm : MonoRec recur)
    (ht : TotalRec nodes fuel recur) (cy : ℚ) (total : Nat) :
    ∀ (l : List TNode) (i : Nat) (st : LSt) (cx tcw mch : ℚ), (∀ c ∈ l, c ∈ nodes) →
      unpos nodes st < fuel → (runNormal recur cy total i l st cx tcw mch).isSome := by
  intro l
  induction l with
  | nil => intro i st cx tcw mch _ _; simp [runNormal]
  | cons c rest ih =>
    intro i st cx tcw mch hsub hu
    simp only [runNormal]
    obtain ⟨r, hr⟩ := Option.isSome_iff_exists.1
      (ht st c cx cy (hsub c (List.mem_cons_self _ _)) hu)
    rw [hr]
    exact ih _ _ _ _ _ (fun d hd => hsub d (List.mem_cons_of_mem _ hd))
      (lt_of_le_of_lt (unpos_mono (hm _ _ _ _ _ hr).1) hu)

lemma mem_insertByTime {gt : String → ℚ} {a c : TNode} :
    ∀ {l : List TNode}, c ∈ insertByTime gt a l → c = a ∨ c ∈ l := by
  intro l
  induction l with
  | nil =>
    intro h
    rcases List.mem_cons.1 h with h | h
    · exact Or.inl h
    · cases h
  | cons b t ih =>
    intro h
    rw [insertByTime] at h
    by_cases hgt : createdTime gt b > createdTime gt a
    · rw [if_pos hgt] at h
      rcases List.mem_cons.1 h with h | h
      · exact Or.inr (h ▸ List.mem_cons_self _ _)
      · rcases ih h with h2 | h2
        · exact Or.inl h2
        · exact Or.inr (List.mem_cons_of_mem _ h2)
    · rw [if_neg hgt] at h
      rcases List.mem_cons.1 h with h | h
      · exact Or.inl h
      · exact Or.inr h

lemma mem_sortByTimeDesc {gt : String → ℚ} {c : TNode} :
    ∀ {l : List TNode}, c ∈ sortByTimeDesc gt l → c ∈ l := by
  intro l
  induction l with
  | nil => intro h; cases h
  | cons a t ih =>
    intro h
    rw [sortByTimeDesc] at h
    rcases mem_insertByTime h with h2 | h2
    · exact h2 ▸ List.mem_cons_self _ _
    · exact List.mem_cons_of_mem _ (ih h2)

lemma childList_sub (gt : String → ℚ) (nodes : List TNode) (s1 : LSt) (node : TNode) :
    ∀ c ∈ childList gt nodes s1 node, c ∈ nodes := by
  intro c hc
  exact (List.mem_filter.1 (mem_sortByTimeDesc hc)).1

/-- With fuel exceeding the number of unpositioned nodes, the layout
recursion always succeeds, on any graph, cyclic parent relations
included. -/
lemma posNC_some (gt : String → ℚ) (nodes : List TNode) :
    ∀ fuel, TotalRec nodes fuel (positionNodeAndChildren gt nodes fuel) := by
  intro fuel
  induction fuel with
  | zero => intro st c x y _ hu; omega
  | succ fuel ih =>
    intro s n x y hn hu
    rw [posNC_succ]
    by_cases hpos : n.key ∈ s.positioned
    · rw [if_pos hpos]; simp
    · rw [if_neg hpos]
      dsimp only
      set s1 : LSt := ⟨setPos s.pos n.key (x, y), n.key :: s.positioned, s.maxX⟩ with hs1
      have hu1 : unpos nodes s1 < fuel := by
        have := unpos_strict hn hpos (setPos s.pos n.key (x, y)) s.maxX
        rw [← hs1] at this
        omega
      by_cases hcl : (childList gt nodes s1 n).length = 0
      · rw [if_pos hcl]; simp
      · rw [if_neg hcl]
        by_cases hbig : (childList gt nodes s1 n).length > maxPerRow
        · rw [if_pos hbig]
          obtain ⟨rs, hrun⟩ := Option.isSome_iff_exists.1
            (runStagger_some (posNC_mono gt nodes fuel) ih (x + childIndent) (y + verticalGap)
              (childList gt nodes s1 n) 0 s1 0 (childList_sub gt nodes s1 n) hu1)
          rw [hrun]
          simp
        · rw [if_neg hbig]
          obtain ⟨rs, hrun⟩ := Option.isSome_iff_exists.1
            (runNormal_some (posNC_mono gt nodes fuel) ih (y + verticalGap)
              (childList gt nodes s1 n).length (childList gt nodes s1 n) 0 s1
              (x + childIndent) 0 0 (childList_sub gt nodes s1 n) hu1)
          rw [hrun]
          simp

lemma rootsFold_some (gt : String → ℚ) (nodes : List TNode) :
    ∀ (l : List TNode) (acc : Option (LSt × ℚ)), (∀ c ∈ l, c ∈ nodes) → acc.isSome →
      (l.foldl (rootStep gt nodes) acc).isSome := by
  intro l
  induction l with
  | nil => intro acc _ h; simpa using h
  | cons c rest ih =>
    intro acc hsub hacc
    rw [List.foldl_cons]
    apply ih _ fun d hd => hsub d (List.mem_cons_of_mem _ hd)
    obtain ⟨sr, hsr⟩ := Option.isSome_iff_exists.1 hacc
    rw [hsr]
    obtain ⟨r, hr⟩ := Option.isSome_iff_exists.1
      (posNC_some gt nodes (nodes.length + 1) sr.1 c sr.2 20
        (hsub c (List.mem_cons_self _ _))
        (Nat.lt_succ_of_le (unpos_le_length nodes sr.1)))
    simp [rootStep, hr]

lemma rootsPass_some (gt : String → ℚ) (nodes : List TNode) : (rootsPass gt nodes).isSome := by
  rw [rootsPass]
  exact rootsFold_some gt nodes _ _ (fun c hc => (List.mem_filter.1 hc).1) (by simp)

/-! ## Claim theorems C1 and C2 -/

/-- C1. Single-placement invariant: a node already in the positioned set
makes the recursive placement function return immediately, with the state
(and hence every stored coordinate, in particular a hybrid node's
already-assigned (x, y) pair) unchanged and reported dimensions (0, 0);
so a node reached again via a second parent is never repositioned. -/
theorem claim1_single_placement (gt : String → ℚ) (nodes : List TNode) (fuel : Nat) (s : LSt)
    (node : TNode) (x y : ℚ) (h : node.key ∈ s.positioned) :
    positionNodeAndChildren gt nodes (fuel + 1) s node x y = some (s, 0, 0) := by
  rw [posNC_succ, if_pos h]

/-- Concrete instance for C1: a node whose key is already positioned is
returned untouched. -/
def c1State : LSt := ⟨fun _ => (7, 9), ["a.html"], 42⟩

/-- Concrete node for the C1 witness. -/
def c1Node : TNode :=
  ⟨"a.html", some "a", some 0, some "", some "", some false, ["b.html"], [], "", "", ""⟩

theorem claim1_single_placement_witness :
    c1Node.key ∈ c1State.positioned ∧
      positionNodeAndChildren (fun _ => 0) [c1Node] 4 c1State c1Node 99 99 =
        some (c1State, 0, 0) :=
  ⟨by decide, claim1_single_placement (fun _ => 0) [c1Node] 3 c1State c1Node 99 99 (by decide)⟩

/-- C2. Cycle termination: on every input graph, cyclic parent relations
included, the layout (root pass fuelled with one more than the node
count, then orphan placement) completes: renderTreeLayout never runs out
of fuel, because every recursive step first marks its node positioned,
strictly shrinking the set of unpositioned nodes. -/
theorem claim2_cycle_termination (gt : String → ℚ) (nodes : List TNode) :
    (renderTreeLayout gt nodes).isSome := by
  rw [renderTreeLayout, Option.isSome_map']
  exact rootsPass_some gt nodes

/-! ## Concrete scenario graphs -/

/-- Time oracle for the concrete scenarios; their created fields are all
empty strings, so its value is never consulted by the sort. -/
def gtZero : String → ℚ := fun _ => 0

/-- Shorthand for a fully populated node, as the builder produces for a
flattened raw entry. -/
def mkNode (k : String) (gen : ℚ) (hyb : Bool) (ps : List String) : TNode :=
  ⟨k, some k, some gen, some "", some "", some hyb, ps, [], "", "", ""⟩

/-- Scenario A graph: a base template and one derived child. -/
def scenarioA : List TNode :=
  [mkNode "base.html" 0 false [], mkNode "child.html" 1 false ["base.html"]]

/-- Scenario C graph: two roots and one hybrid child of both. -/
def scenarioC : List TNode :=
  [mkNode "a.html" 0 false [], mkNode "b.html" 0 false [],
    mkNode "hyb.html" 1 true ["a.html", "b.html"]]

/-! ## Claim C8: minimap viewport synchronisation -/

/-- C8. Viewport sync round-trip: with a nonzero canvas, the viewport
rectangle's position is the scroll offset scaled by minimap size over
canvas size, per axis, exactly (so in particular within any rounding
tolerance), and its size is the client size scaled by the same per-axis
factors. -/
theorem claim8_viewport_sync (sx sy cw ch mw mh cvw cvh : ℚ) (hW : cvw ≠ 0) (hH : cvh ≠ 0) :
    updateMinimapViewport sx sy cw ch mw mh cvw cvh =
      some ⟨sx * mw / cvw, sy * mh / cvh, cw * mw / cvw, ch * mh / cvh⟩ := by
  rw [updateMinimapViewport, if_neg hW]
  dsimp only
  rw [mul_div_assoc, mul_div_assoc, mul_div_assoc, mul_div_assoc]

theorem claim8_viewport_sync_witness :
    (1000 : ℚ) ≠ 0 ∧ (800 : ℚ) ≠ 0 ∧
      updateMinimapViewport 30 40 500 400 100 50 1000 800 =
        some ⟨30 * 100 / 1000, 40 * 50 / 800, 500 * 100 / 1000, 400 * 50 / 800⟩ :=
  ⟨by norm_num, by norm_num,
    claim8_viewport_sync 30 40 500 400 100 50 1000 800 (by norm_num) (by norm_num)⟩

/-! ## Claim C6: layout determinism -/

/-- C6. Layout determinism: for a fixed graph the computed card
coordinates are identical across runs, and do not depend on the wall
clock (the now argument only drives the recent badge, never x or y). -/
theorem claim6_determinism (gt : String → ℚ) (nodes nodes2 : List TNode) (now now2 : ℚ)
    (h : nodes = nodes2) :
    ((renderTreeLayout gt nodes).map fun l =>
        (createCards gt now nodes l.pos).map fun c => (c.key, c.x, c.y)) =
      ((renderTreeLayout gt nodes2).map fun l =>
        (createCards gt now2 nodes2 l.pos).map fun c => (c.key, c.x, c.y)) := by
  subst h
  have hc : ∀ (p : String → ℚ × ℚ) (nw : ℚ),
      ((createCards gt nw nodes p).map fun c => (c.key, c.x, c.y)) =
        nodes.map fun n => (n.key, (p n.key).1, (p n.key).2) := by
    intro p nw
    simp [createCards, List.map_map, Function.comp]
  cases renderTreeLayout gt nodes with
  | none => rfl
  | some l => simp only [Option.map_some', hc]

theorem claim6_determinism_witness :
    scenarioA = scenarioA ∧
      ((renderTreeLayout gtZero scenarioA).map fun l =>
          (createCards gtZero 0 scenarioA l.pos).map fun c => (c.key, c.x, c.y)) =
        ((renderTreeLayout gtZero scenarioA).map fun l =>
          (createCards gtZero 999999 scenarioA l.pos).map fun c => (c.key, c.x, c.y)) :=
  ⟨rfl, claim6_determinism gtZero scenarioA scenarioA 0 999999 rfl⟩

/-! ## Claim C7: connection-line rendering -/

lemma parentsFold_eq (nodes : List TNode) (pos : String → ℚ × ℚ) (node : TNode) :
    ∀ (ps : List String) (acc : List CLine),
      ps.foldl
        (fun acc parentKey =>
          match nodeMapFind nodes parentKey with
          | some parent => acc ++ [lineFor pos parent node]
          | none => acc)
        acc =
      acc ++ ps.filterMap fun pk => (nodeMapFind nodes pk).map fun parent =>
        lineFor pos parent node := by
  intro ps
  induction ps with
  | nil => intro acc; simp
  | cons pk rest ih =>
    intro acc
    cases hf : nodeMapFind nodes pk with
    | none =>
      simp only [List.foldl_cons, List.filterMap_cons, hf, Option.map_none']
      exact ih acc
    | some parent =>
      simp only [List.foldl_cons, List.filterMap_cons, hf, Option.map_some']
      rw [ih]
      simp

lemma linesFold_eq (nodes : List TNode) (pos : String → ℚ × ℚ) :
    ∀ (ns : List TNode) (acc : List CLine),
      ns.foldl
        (fun lines node =>
          if node.parents.length > 0 then
            lines ++ node.parents.foldl
              (fun acc parentKey =>
                match nodeMapFind nodes parentKey with
                | some parent => acc ++ [lineFor pos parent node]
                | none => acc)
              []
          else lines)
        acc =
      acc ++ ns.flatMap (nodeLines nodes pos) := by
  intro ns
  induction ns with
  | nil => intro acc; simp
  | cons node rest ih =>
    intro acc
    rw [List.foldl_cons, List.flatMap_cons]
    by_cases hp : node.parents.length > 0
    · rw [if_pos hp, ih, parentsFold_eq, List.nil_append, List.append_assoc]
      rfl
    · rw [if_neg hp]
      have hemp : node.parents = [] := by
        cases hps : node.parents with
        | nil => rfl
        | cons a t => rw [hps] at hp; simp at hp
      have hnl : nodeLines nodes pos node = [] := by
        simp [nodeLines, hemp]
      rw [ih, hnl, List.nil_append]

/-- C7. Connection-line rendering: the renderer emits, in node order,
exactly one line per (node, parents-list entry) pair whose entry resolves
through the node map — drawn from the parent card's bottom-center to the
child card's top-center and carrying the hybrid styling exactly when the
child is hybrid (that is what lineFor and nodeLines record) — and, on the
Scenario C graph, the hybrid child of two roots is positioned exactly
once yet receives exactly two incoming lines, one from each root, both
hybrid-styled, ending at its top-center (145, 120). -/
theorem claim7_connection_lines :
    (∀ (nodes : List TNode) (pos : String → ℚ × ℚ),
        createConnectionLines nodes pos = nodes.flatMap (nodeLines nodes pos)) ∧
      ((renderTreeLayout gtZero scenarioC).map fun l => createConnectionLines scenarioC l.pos) =
        some [⟨120, 105, 145, 120, true⟩, ⟨350, 105, 145, 120, true⟩] ∧
      ((renderTreeLayout gtZero scenarioC).map fun l =>
          (l.pos "hyb.html", l.positioned.count "hyb.html")) = some ((45, 120), 1) := by
  refine ⟨fun nodes pos => ?_, by with_unfolding_all decide, by with_unfolding_all decide⟩
  rw [createConnectionLines, linesFold_eq, List.nil_append]

/-! ## Claim C9: graph model normalisation -/

/-- Normalisation of the generation field as the spec words it (a spec
rendition for comparison, not a translation of the source): prefer the
nested field, fall back to the flattened field, then to the default 0. -/
def specNormalizedGeneration (data : RawData) : ℚ :=
  match data.info.bind RawInfo.generation with
  | some g => g
  | none =>
    match data.generation with
    | some g => g
    | none => 0

/-- Raw entry with a present but empty info object and a flattened
generation of 5: the builder leaves generation undefined. -/
def c9Raw : RawData :=
  ⟨some ⟨none, none, none, none, none, none, none, none, none⟩,
    none, some 5, none, none, none, none, none, none, none, none⟩

theorem claim9_counterexample :
    (buildNode "a.html" c9Raw).generation = none ∧
      specNormalizedGeneration c9Raw = 5 ∧
      (buildNode "a.html" c9Raw).generation ≠ some (specNormalizedGeneration c9Raw) ∧
      (buildNode "a.html" c9Raw).generation ≠ some 0 := by
  decide

/-- C9 (amended). The builder accepts both shapes, keyed on the presence
of the info sub-object. With info absent, flattened fields are used with
truthy-or defaults (name falls back to the key, generation to 0, type to
Unknown, description to the empty string, is_hybrid to false, parents to
the empty list). With info present, the nested fields are preferred, but
only parents, job_title, job_company and created receive defaults;
name, generation, type, description and is_hybrid are taken from info
as-is and may remain undefined — there is no fallback from a missing
nested field to the flattened field or to a default. -/
theorem claim9_amended (key : String) (data : RawData) :
    (data.info = none →
      buildNode key data =
        ⟨key, some (jsOrStr data.name key), some (jsOrNum data.generation 0),
          some (jsOrStr data.vtype "Unknown"), some (jsOrStr data.description ""),
          some (jsOrBool data.is_hybrid false), data.parents.getD [], data.children.getD [],
          jsOrStr data.job_title "", jsOrStr data.job_company "", jsOrStr data.created ""⟩) ∧
      (∀ i, data.info = some i →
        buildNode key data =
          ⟨key, i.name, i.generation, i.vtype, i.description, i.is_hybrid,
            i.parents.getD [], data.children.getD [], jsOrStr i.job_title "",
            jsOrStr i.job_company "", jsOrStr i.created ""⟩) := by
  constructor
  · intro h
    simp [buildNode, h]
  · intro i h
    simp [buildNode, h]

theorem claim9_amended_witness :
    c9Raw.info = some ⟨none, none, none, none, none, none, none, none, none⟩ ∧
      buildNode "a.html" c9Raw =
        ⟨"a.html", none, none, none, none, none, [], [], "", "", ""⟩ :=
  ⟨rfl, (claim9_amended "a.html" c9Raw).2 ⟨none, none, none, none, none, none, none, none, none⟩ rfl⟩

/-! ## Claim C4: parent-over-children centering -/

theorem claim4_counterexample :
    ((renderTreeLayout gtZero scenarioA).map fun l =>
        decide ((l.pos "child.html").1 + cardWidth / 2 = (l.pos "base.html").1 + cardWidth / 2)) =
      some false := by
  with_unfolding_all decide

/-- C4 (amended). In Scenario A, base.html sits in the top row at
(20, 20) and child.html directly beneath it at (45, 120): offset
childIndent = 25 to the right, hence its card center is 25px right of the
parent's center, not equal to it. In general, when the children's
combined width exceeds the card width, the node's x is reassigned to
x + (totalChildWidth - cardWidth) / 2 — which centers the node over the
children's span shifted left by childIndent, not over the span's actual
midpoint. -/
theorem claim4_amended :
    (((renderTreeLayout gtZero scenarioA).map fun l =>
        (l.pos "base.html", l.pos "child.html")) = some ((20, 20), (45, 120))) ∧
      ((45 : ℚ) = 20 + childIndent ∧ (120 : ℚ) = 20 + verticalGap) ∧
      (∀ (st : LSt) (node : TNode) (x mch tcw : ℚ), tcw > cardWidth →
        ((finishNode st node x mch tcw).1.pos node.key).1 = x + (tcw - cardWidth) / 2) := by
  refine ⟨by with_unfolding_all decide, by constructor <;> norm_num [childIndent, verticalGap], ?_⟩
  intro st node x mch tcw h
  rw [finishNode_fst_big h]
  dsimp only
  rw [setPos_same]

/-- State used by the C4 witness. -/
def w4State : LSt := ⟨fun _ => (0, 0), [], 0⟩

theorem claim4_amended_witness :
    (300 : ℚ) > cardWidth ∧
      ((finishNode w4State c1Node 10 0 300).1.pos c1Node.key).1 = 10 + (300 - cardWidth) / 2 :=
  ⟨by norm_num [cardWidth],
    claim4_amended.2.2 w4State c1Node 10 0 300 (by norm_num [cardWidth])⟩

/-! ## Claim C10: canvas containment -/

lemma rootStep_foldl_none (gt : String → ℚ) (nodes : List TNode) :
    ∀ l : List TNode, List.foldl (rootStep gt nodes) none l = none := by
  intro l
  induction l with
  | nil => rfl
  | cons c t ih =>
    rw [List.foldl_cons, show rootStep gt nodes none c = none from rfl]
    exact ih

lemma rootsFold_rel (gt : String → ℚ) (nodes : List TNode) :
    ∀ (l : List TNode) (sr out : LSt × ℚ),
      List.foldl (rootStep gt nodes) (some sr) l = some out → StRel sr.1 out.1 := by
  intro l
  induction l with
  | nil =>
    intro sr out h
    cases h
    exact stRel_refl _
  | cons c t ih =>
    intro sr out h
    rw [List.foldl_cons] at h
    cases hp : positionNodeAndChildren gt nodes (nodes.length + 1) sr.1 c sr.2 20 with
    | none =>
      rw [show rootStep gt nodes (some sr) c = none by simp [rootStep, hp],
        rootStep_foldl_none] at h
      cases h
    | some r =>
      rw [show rootStep gt nodes (some sr) c = some (r.1, sr.2 + r.2.1 + horizontalGap * 2) by
        simp [rootStep, hp]] at h
      exact stRel_trans (posNC_mono gt nodes (nodes.length + 1) _ _ _ _ _ hp) (ih _ _ h)

lemma placeOrphans_maxX (rootX : ℚ) :
    ∀ (l : List TNode) (i : Nat) (st : LSt), (placeOrphans rootX i l st).maxX = st.maxX := by
  intro l
  induction l with
  | nil => intro i st; rfl
  | cons n t ih => intro i st; rw [placeOrphans, ih]

lemma placeOrphans_pos_ne (rootX : ℚ) :
    ∀ (l : List TNode) (i : Nat) (st : LSt) (k : String), (∀ n ∈ l, n.key ≠ k) →
      (placeOrphans rootX i l st).pos k = st.pos k := by
  intro l
  induction l with
  | nil => intro i st k _; rfl
  | cons n t ih =>
    intro i st k hne
    rw [placeOrphans, ih _ _ _ fun m hm => hne m (List.mem_cons_of_mem _ hm)]
    exact setPos_other _ _ _ _ fun he => hne n (List.mem_cons_self _ _) he.symm

lemma jsMax_mem_le : ∀ (l : List ℚ) (a : ℚ), a ∈ l → a ≤ jsMax l := by
  intro l
  induction l with
  | nil => intro a h; cases h
  | cons b t ih =>
    intro a h
    cases t with
    | nil =>
      rcases List.mem_cons.1 h with h2 | h2
      · rw [h2, jsMax]
      · cases h2
    | cons c t2 =>
      rw [jsMax]
      rcases List.mem_cons.1 h with h2 | h2
      · rw [h2]; exact le_max_left _ _
      · exact le_trans (ih a h2) (le_max_right _ _)

/-- Concrete graph violating containment: one root and one orphan whose
only parent id resolves to no node. -/
def c10Nodes : List TNode :=
  [mkNode "root.html" 0 false [], mkNode "orphan.html" 1 false ["ghost.html"]]

theorem claim10_counterexample :
    ((renderTreeLayout gtZero c10Nodes).map fun l =>
        decide ((l.pos "orphan.html").1 + cardWidth ≤ l.canvasWidth)) = some false := by
  with_unfolding_all decide

/-- C10 (amended). Every node placed during the root pass has its card
fully left of canvasWidth = maxX + 40, and every node — orphans
included — has its card fully above canvasHeight = maxY + cardHeight +
40. The x-bound does not extend to orphan-row cards: the orphan loop
never updates maxX, so an orphan card can extend past canvasWidth (see
the counterexample). -/
theorem claim10_amended (gt : String → ℚ) (nodes : List TNode) (l : Layout) (n : TNode)
    (hl : renderTreeLayout gt nodes = some l) (hn : n ∈ nodes) :
    (n.key ∈ l.rootPositioned → (l.pos n.key).1 + cardWidth ≤ l.canvasWidth) ∧
      (l.pos n.key).2 + cardHeight ≤ l.canvasHeight := by
  rw [renderTreeLayout] at hl
  cases hr : rootsPass gt nodes with
  | none => rw [hr] at hl; cases hl
  | some sr =>
    rw [hr, Option.map_some'] at hl
    cases hl
    dsimp only
    constructor
    · intro hk
      rw [rootsPass] at hr
      have hrel := rootsFold_rel gt nodes _ _ _ hr
      have hext := hrel.2.2.2 n.key hk (by simp)
      have hpres : (placeOrphans sr.2 0
          (nodes.filter fun m => !(sr.1.positioned.contains m.key)) sr.1).pos n.key =
          sr.1.pos n.key := by
        apply placeOrphans_pos_ne
        intro o ho he
        have hno : (!(sr.1.positioned.contains o.key)) = true := (List.mem_filter.1 ho).2
        exact (not_contains_iff _ _).1 hno (he ▸ hk)
      rw [hpres, placeOrphans_maxX]
      have h40 : (0 : ℚ) ≤ 40 := by norm_num
      linarith
    · have hmem : ((placeOrphans sr.2 0
          (nodes.filter fun m => !(sr.1.positioned.contains m.key)) sr.1).pos n.key).2 ∈
          nodes.map fun m => ((placeOrphans sr.2 0
            (nodes.filter fun m2 => !(sr.1.positioned.contains m2.key)) sr.1).pos m.key).2 :=
        List.mem_map.2 ⟨n, hn, rfl⟩
      have hle := jsMax_mem_le _ _ hmem
      linarith

/-- The layout of Scenario A, used by the C10 witness. -/
def w10Layout : Layout :=
  (renderTreeLayout gtZero scenarioA).get
    (by rw [renderTreeLayout, Option.isSome_map']; exact rootsPass_some gtZero scenarioA)

theorem claim10_amended_witness :
    renderTreeLayout gtZero scenarioA = some w10Layout ∧
      mkNode "base.html" 0 false [] ∈ scenarioA ∧
      ((mkNode "base.html" 0 false []).key ∈ w10Layout.rootPositioned →
          (w10Layout.pos (mkNode "base.html" 0 false []).key).1 + cardWidth ≤
            w10Layout.canvasWidth) ∧
      (w10Layout.pos (mkNode "base.html" 0 false []).key).2 + cardHeight ≤
        w10Layout.canvasHeight :=
  ⟨(Option.some_get _).symm, List.mem_cons_self _ _,
    claim10_amended gtZero scenarioA w10Layout (mkNode "base.html" 0 false [])
      (Option.some_get _).symm (List.mem_cons_self _ _) |>.1,
    claim10_amended gtZero scenarioA w10Layout (mkNode "base.html" 0 false [])
      (Option.some_get _).symm (List.mem_cons_self _ _) |>.2⟩

/-! ## Claim C5: orphan completeness -/

lemma contains_true_iff (l : List String) (a : String) : l.contains a = true ↔ a ∈ l := by
  simp [List.contains]

/-- A key that can be reached through the child filter: it names a node
of the graph one of whose parents entries resolves to a node of the
graph. -/
def Resolvable (nodes : List TNode) (k : String) : Prop :=
  ∃ c ∈ nodes, c.key = k ∧ ∃ m ∈ nodes, m.key ∈ c.parents

/-- A recursion step only ever positions its own node or resolvable
keys. -/
def NewKeysRec (nodes : List TNode)
    (recur : LSt → TNode → ℚ → ℚ → Option (LSt × ℚ × ℚ)) : Prop :=
  ∀ s n x y r, n ∈ nodes → recur s n x y = some r →
    ∀ k ∈ r.1.positioned, k ∈ s.positioned ∨ k = n.key ∨ Resolvable nodes k

lemma runStagger_newKeys {nodes : List TNode} {recur} (hnk : NewKeysRec nodes recur)
    (cx cy : ℚ) :
    ∀ (l : List TNode) (i : Nat) (st : LSt) (mch : ℚ) (out : LSt × ℚ),
      (∀ c ∈ l, c ∈ nodes ∧ Resolvable nodes c.key) →
      runStagger recur cx cy i l st mch = some out →
      ∀ k ∈ out.1.positioned, k ∈ st.positioned ∨ Resolvable nodes k := by
  intro l
  induction l with
  | nil =>
    intro i st mch out _ h k hk
    cases h
    exact Or.inl hk
  | cons c rest ih =>
    intro i st mch out hsub h k hk
    simp only [runStagger] at h
    cases hr : recur st c (cx + ((i / maxPerRow : Nat) : ℚ) * staggerOffset +
        ((i % maxPerRow : Nat) : ℚ) * (cardWidth + horizontalGap))
        (cy + ((i / maxPerRow : Nat) : ℚ) * (cardHeight + 20)) with
    | none => rw [hr] at h; exact absurd h (by simp)
    | some r =>
      rw [hr] at h
      rcases ih _ _ _ _ (fun d hd => hsub d (List.mem_cons_of_mem _ hd)) h k hk with h2 | h2
      · rcases hnk _ _ _ _ _ (hsub c (List.mem_cons_self _ _)).1 hr k h2 with h3 | h3 | h3
        · exact Or.inl h3
        · exact Or.inr (h3 ▸ (hsub c (List.mem_cons_self _ _)).2)
        · exact Or.inr h3
      · exact Or.inr h2

lemma runNormal_newKeys {nodes : List TNode} {recur} (hnk : NewKeysRec nodes recur)
    (cy : ℚ) (total : Nat) :
    ∀ (l : List TNode) (i : Nat) (st : LSt) (cx tcw mch : ℚ) (out : LSt × ℚ × ℚ),
      (∀ c ∈ l, c ∈ nodes ∧ Resolvable nodes c.key) →
      runNormal recur cy total i l st cx tcw mch = some out →
      ∀ k ∈ out.1.positioned, k ∈ st.positioned ∨ Resolvable nodes k := by
  intro l
  induction l with
  | nil =>
    intro i st cx tcw mch out _ h k hk
    cases h
    exact Or.inl hk
  | cons c rest ih =>
    intro i st cx tcw mch out hsub h k hk
    simp only [runNormal] at h
    cases hr : recur st c cx cy with
    | none => rw [hr] at h; exact absurd h (by simp)
    | some r =>
      rw [hr] at h
      rcases ih _ _ _ _ _ _ (fun d hd => hsub d (List.mem_cons_of_mem _ hd)) h k hk with h2 | h2
      · rcases hnk _ _ _ _ _ (hsub c (List.mem_cons_self _ _)).1 hr k h2 with h3 | h3 | h3
        · exact Or.inl h3
        · exact Or.inr (h3 ▸ (hsub c (List.mem_cons_self _ _)).2)
        · exact Or.inr h3
      · exact Or.inr h2

lemma finishNode_positioned (st : LSt) (node : TNode) (x mch tcw : ℚ) :
    (finishNode st node x mch tcw).1.positioned = st.positioned := by
  by_cases h : tcw > cardWidth
  · rw [finishNode_fst_big h]
  · rw [finishNode_fst_small h]

lemma childList_resolvable (gt : String → ℚ) {nodes : List TNode} (s1 : LSt) {n : TNode}
    (hn : n ∈ nodes) :
    ∀ c ∈ childList gt nodes s1 n, c ∈ nodes ∧ Resolvable nodes c.key := by
  intro c hc
  have hf := List.mem_filter.1 (mem_sortByTimeDesc hc)
  refine ⟨hf.1, c, hf.1, rfl, n, hn, ?_⟩
  have := hf.2
  rw [Bool.and_eq_true] at this
  exact (contains_true_iff _ _).1 this.1

/-- Keys positioned by a call of positionNodeAndChildren are the node's
own key or resolvable keys, on top of the keys already positioned. -/
lemma posNC_newKeys (gt : String → ℚ) (nodes : List TNode) :
    ∀ fuel, NewKeysRec nodes (positionNodeAndChildren gt nodes fuel) := by
  intro fuel
  induction fuel with
  | zero =>
    intro s n x y r _ h
    exact absurd h (by simp [positionNodeAndChildren])
  | succ fuel ih =>
    intro s n x y r hn h k hk
    rw [posNC_succ] at h
    by_cases hpos : n.key ∈ s.positioned
    · rw [if_pos hpos] at h
      cases h
      exact Or.inl hk
    · rw [if_neg hpos] at h
      set s1 : LSt := ⟨setPos s.pos n.key (x, y), n.key :: s.positioned, s.maxX⟩ with hs1
      by_cases hcl : (childList gt nodes s1 n).length = 0
      · rw [if_pos hcl] at h
        cases h
        dsimp only at hk
        rcases List.mem_cons.1 hk with h2 | h2
        · exact Or.inr (Or.inl h2)
        · exact Or.inl h2
      · rw [if_neg hcl] at h
        by_cases hbig : (childList gt nodes s1 n).length > maxPerRow
        · rw [if_pos hbig] at h
          cases hrun : runStagger (positionNodeAndChildren gt nodes fuel) (x + childIndent)
              (y + verticalGap) 0 (childList gt nodes s1 n) s1 0 with
          | none => rw [hrun] at h; exact absurd h (by simp)
          | some rs =>
            rw [hrun] at h
            cases h
            rw [finishNode_positioned] at hk
            rcases runStagger_newKeys ih _ _ _ _ _ _ _
                (childList_resolvable gt s1 hn) hrun k hk with h2 | h2
            · rcases List.mem_cons.1 h2 with h3 | h3
              · exact Or.inr (Or.inl h3)
              · exact Or.inl h3
            · exact Or.inr (Or.inr h2)
        · rw [if_neg hbig] at h
          cases hrun : runNormal (positionNodeAndChildren gt nodes fuel) (y + verticalGap)
              (childList gt nodes s1 n).length 0 (childList gt nodes s1 n) s1
              (x + childIndent) 0 0 with
          | none => rw [hrun] at h; exact absurd h (by simp)
          | some rs =>
            rw [hrun] at h
            cases h
            rw [finishNode_positioned] at hk
            rcases runNormal_newKeys ih _ _ _ _ _ _ _ _ _
                (childList_resolvable gt s1 hn) hrun k hk with h2 | h2
            · rcases List.mem_cons.1 h2 with h3 | h3
              · exact Or.inr (Or.inl h3)
              · exact Or.inl h3
            · exact Or.inr (Or.inr h2)

lemma rootsFold_newKeys (gt : String → ℚ) (nodes : List TNode) :
    ∀ (l : List TNode) (sr out : LSt × ℚ),
      (∀ c ∈ l, c ∈ nodes ∧ c.parents = []) →
      List.foldl (rootStep gt nodes) (some sr) l = some out →
      ∀ k ∈ out.1.positioned,
        k ∈ sr.1.positioned ∨ (∃ c ∈ nodes, c.key = k ∧ c.parents = []) ∨
          Resolvable nodes k := by
  intro l
  induction l with
  | nil =>
    intro sr out _ h k hk
    cases h
    exact Or.inl hk
  | cons c t ih =>
    intro sr out hsub h k hk
    rw [List.foldl_cons] at h
    cases hp : positionNodeAndChildren gt nodes (nodes.length + 1) sr.1 c sr.2 20 with
    | none =>
      rw [show rootStep gt nodes (some sr) c = none by simp [rootStep, hp],
        rootStep_foldl_none] at h
      cases h
    | some r =>
      rw [show rootStep gt nodes (some sr) c = some (r.1, sr.2 + r.2.1 + horizontalGap * 2) by
        simp [rootStep, hp]] at h
      rcases ih _ _ (fun d hd => hsub d (List.mem_cons_of_mem _ hd)) h k hk with h2 | h2 | h2
      · rcases posNC_newKeys gt nodes _ _ _ _ _ _
            (hsub c (List.mem_cons_self _ _)).1 hp k h2 with h3 | h3 | h3
        · exact Or.inl h3
        · exact Or.inr (Or.inl ⟨c, (hsub c (List.mem_cons_self _ _)).1, h3.symm,
            (hsub c (List.mem_cons_self _ _)).2⟩)
        · exact Or.inr (Or.inr h3)
      · exact Or.inr (Or.inl h2)
      · exact Or.inr (Or.inr h2)

lemma placeOrphans_positioned_sub (rootX : ℚ) :
    ∀ (l : List TNode) (i : Nat) (st : LSt) (k : String), k ∈ st.positioned →
      k ∈ (placeOrphans rootX i l st).positioned := by
  intro l
  induction l with
  | nil => intro i st k h; exact h
  | cons m t ih =>
    intro i st k h
    rw [placeOrphans]
    exact ih _ _ _ (List.mem_cons_of_mem _ h)

lemma placeOrphans_mem (rootX : ℚ) :
    ∀ (l : List TNode) (i : Nat) (st : LSt) (n : TNode), n ∈ l →
      n.key ∈ (placeOrphans rootX i l st).positioned := by
  intro l
  induction l with
  | nil => intro i st n h; cases h
  | cons m t ih =>
    intro i st n h
    rw [placeOrphans]
    rcases List.mem_cons.1 h with h2 | h2
    · exact placeOrphans_positioned_sub _ _ _ _ _ (h2 ▸ List.mem_cons_self _ _)
    · exact ih _ _ _ h2

lemma placeOrphans_pos_get (rootX : ℚ) :
    ∀ (l : List TNode) (i : Nat) (st : LSt) (j : Nat) (hj : j < l.length),
      (l.map TNode.key).Nodup →
      (placeOrphans rootX i l st).pos (l.get ⟨j, hj⟩).key =
        (rootX + ((i + j : Nat) : ℚ) * (cardWidth + horizontalGap), 20) := by
  intro l
  induction l with
  | nil => intro i st j hj _; exact absurd hj (Nat.not_lt_zero j)
  | cons m t ih =>
    intro i st j hj hnd
    rw [placeOrphans]
    cases j with
    | zero =>
      have hne : ∀ d ∈ t, d.key ≠ m.key := by
        intro d hd he
        exact (List.nodup_cons.1 hnd).1 (he ▸ List.mem_map_of_mem TNode.key hd)
      have hget : (((m :: t).get ⟨0, hj⟩) : TNode) = m := rfl
      rw [hget, placeOrphans_pos_ne _ _ _ _ _ hne]
      dsimp only
      rw [setPos_same]
      norm_num
    | succ j2 =>
      have hj2 : j2 < t.length := by
        have := hj
        simp only [List.length_cons] at this
        omega
      have hget : (((m :: t).get ⟨j2 + 1, hj⟩) : TNode) = t.get ⟨j2, hj2⟩ := rfl
      rw [hget, ih (i + 1) _ j2 hj2 (List.nodup_cons.1 hnd).2]
      have : i + 1 + j2 = i + (j2 + 1) := by omega
      rw [this]

lemma cards_countP_one (gt : String → ℚ) (now : ℚ) {nodes : List TNode}
    (hnd : (nodes.map TNode.key).Nodup) {n : TNode} (hn : n ∈ nodes)
    (pos : String → ℚ × ℚ) :
    (createCards gt now nodes pos).countP (fun c => c.key == n.key) = 1 := by
  rw [createCards, List.countP_map]
  have h1 : ((fun c : Card => c.key == n.key) ∘ fun m : TNode =>
      (⟨m.key, (pos m.key).1, (pos m.key).2, isRecentlyCreated gt now m.created⟩ : Card)) =
      fun m : TNode => m.key == n.key := rfl
  rw [h1]
  have h2 : (nodes.countP fun m : TNode => m.key == n.key) =
      (nodes.map TNode.key).count n.key := by
    rw [List.count, List.countP_map]
    rfl
  rw [h2]
  exact List.count_eq_one_of_mem hnd (List.mem_map_of_mem TNode.key hn)

/-- C5. Orphan completeness: a node all of whose parents entries fail to
resolve is untouched by the root pass, the layout still succeeds, the
node ends up positioned exactly once — at the orphan-row slot
(rootX + j * (cardWidth + horizontalGap), 20) for its encounter index j
among the orphans, at or right of the final root cursor — and the card
layer renders exactly one card for it. -/
theorem claim5_orphan_completeness (gt : String → ℚ) (nodes : List TNode) (now : ℚ)
    (n : TNode) (hnd : (nodes.map TNode.key).Nodup) (hn : n ∈ nodes) (hne : n.parents ≠ [])
    (hdangle : ∀ p ∈ n.parents, ∀ m ∈ nodes, m.key ≠ p) :
    ∃ s rootX, rootsPass gt nodes = some (s, rootX) ∧ n.key ∉ s.positioned ∧
      ∃ l, renderTreeLayout gt nodes = some l ∧ n.key ∈ l.positioned ∧
        (∃ j, ∃ hj : j < (nodes.filter fun m => !(s.positioned.contains m.key)).length,
          (nodes.filter fun m => !(s.positioned.contains m.key)).get ⟨j, hj⟩ = n ∧
            l.pos n.key = (rootX + (j : ℚ) * (cardWidth + horizontalGap), 20)) ∧
        rootX ≤ (l.pos n.key).1 ∧
        (createCards gt now nodes l.pos).countP (fun c => c.key == n.key) = 1 := by
  obtain ⟨sr, hsr⟩ := Option.isSome_iff_exists.1 (rootsPass_some gt nodes)
  have hnotpos : n.key ∉ sr.1.positioned := by
    intro hk
    have hr2 := hsr
    rw [rootsPass] at hr2
    rcases rootsFold_newKeys gt nodes _ _ _
        (fun c hc => ⟨(List.mem_filter.1 hc).1, by
          have := (List.mem_filter.1 hc).2
          rwa [List.isEmpty_iff] at this⟩) hr2 n.key hk with h2 | h2 | h2
    · simp at h2
    · obtain ⟨c, hcm, hck, hcp⟩ := h2
      have hcn : c = n := List.inj_on_of_nodup_map hnd hcm hn hck
      rw [hcn] at hcp
      exact hne hcp
    · obtain ⟨c, hcm, hck, m, hmm, hmp⟩ := h2
      have hcn : c = n := List.inj_on_of_nodup_map hnd hcm hn hck
      rw [hcn] at hmp
      exact hdangle m.key hmp m hmm rfl
  have horph : n ∈ nodes.filter fun m => !(sr.1.positioned.contains m.key) :=
    List.mem_filter.2 ⟨hn, (not_contains_iff _ _).2 hnotpos⟩
  have hornd : ((nodes.filter fun m => !(sr.1.positioned.contains m.key)).map TNode.key).Nodup :=
    List.Nodup.sublist (List.Sublist.map TNode.key (List.filter_sublist nodes)) hnd
  obtain ⟨⟨j, hj⟩, hget⟩ := List.mem_iff_get.1 horph
  have hpos := placeOrphans_pos_get sr.2 _ 0 sr.1 j hj hornd
  rw [hget] at hpos
  simp only [Nat.zero_add] at hpos
  refine ⟨sr.1, sr.2, by rw [hsr], hnotpos,
    _, by rw [renderTreeLayout, hsr, Option.map_some'], ?_, ⟨j, hj, hget, ?_⟩, ?_, ?_⟩
  · exact placeOrphans_mem sr.2 _ 0 sr.1 n horph
  · dsimp only
    rw [hpos]
  · dsimp only
    rw [hpos]
    have hj0 : (0 : ℚ) ≤ (j : ℚ) * (cardWidth + horizontalGap) :=
      mul_nonneg (Nat.cast_nonneg j) (by norm_num [cardWidth, horizontalGap])
    dsimp only
    linarith
  · exact cards_countP_one gt now hnd hn _

/-- The orphan node of the concrete graph c10Nodes. -/
def orphNode : TNode := mkNode "orphan.html" 1 false ["ghost.html"]

theorem claim5_orphan_completeness_witness :
    ((c10Nodes.map TNode.key).Nodup ∧ orphNode ∈ c10Nodes ∧ orphNode.parents ≠ [] ∧
        (∀ p ∈ orphNode.parents, ∀ m ∈ c10Nodes, m.key ≠ p)) ∧
      (∃ s rootX, rootsPass gtZero c10Nodes = some (s, rootX) ∧
        orphNode.key ∉ s.positioned ∧
        ∃ l, renderTreeLayout gtZero c10Nodes = some l ∧ orphNode.key ∈ l.positioned ∧
          (∃ j, ∃ hj : j < (c10Nodes.filter fun m => !(s.positioned.contains m.key)).length,
            (c10Nodes.filter fun m => !(s.positioned.contains m.key)).get ⟨j, hj⟩ = orphNode ∧
              l.pos orphNode.key = (rootX + (j : ℚ) * (cardWidth + horizontalGap), 20)) ∧
          rootX ≤ (l.pos orphNode.key).1 ∧
          (createCards gtZero 0 c10Nodes l.pos).countP (fun c => c.key == orphNode.key) = 1) :=
  ⟨⟨by decide, by with_unfolding_all decide, by decide, by decide⟩,
    claim5_orphan_completeness gtZero c10Nodes 0 orphNode (by decide)
      (by with_unfolding_all decide) (by decide) (by decide)⟩

/-! ## Claim C3: fan-out staggering -/

lemma insertByTime_of_le (gt : String → ℚ) (a : TNode) :
    ∀ l : List TNode, (∀ b ∈ l, createdTime gt b ≤ createdTime gt a) →
      insertByTime gt a l = a :: l := by
  intro l h
  cases l with
  | nil => rfl
  | cons b t =>
    rw [insertByTime, if_neg]
    exact not_lt_of_le (h b (List.mem_cons_self _ _))

lemma sortByTimeDesc_of_sorted (gt : String → ℚ) :
    ∀ l : List TNode, l.Pairwise (fun a b => createdTime gt b ≤ createdTime gt a) →
      sortByTimeDesc gt l = l := by
  intro l
  induction l with
  | nil => intro _; rfl
  | cons a t ih =>
    intro h
    have hp := List.pairwise_cons.1 h
    rw [sortByTimeDesc, ih hp.2, insertByTime_of_le gt a t hp.1]

/-- Evaluation of positionNodeAndChildren on a childless, not yet
positioned node: it is placed at (x, y), maxX takes in its right edge,
and its dimensions are one card. -/
lemma posNC_leaf (gt : String → ℚ) (nodes : List TNode) (fuel : Nat) (st : LSt) (c : TNode)
    (x y : ℚ) (hpos : c.key ∉ st.positioned) (hleaf : ∀ m ∈ nodes, c.key ∉ m.parents) :
    positionNodeAndChildren gt nodes (fuel + 1) st c x y =
      some (⟨setPos st.pos c.key (x, y), c.key :: st.positioned, max st.maxX (x + cardWidth)⟩,
        cardWidth, cardHeight) := by
  rw [posNC_succ, if_neg hpos]
  have hchild : childList gt nodes
      ⟨setPos st.pos c.key (x, y), c.key :: st.positioned, st.maxX⟩ c = [] := by
    rw [childList]
    have hfil : (nodes.filter fun m =>
        m.parents.contains c.key &&
          !((⟨setPos st.pos c.key (x, y), c.key :: st.positioned, st.maxX⟩ : LSt).positioned.contains
            m.key)) = [] := by
      rw [List.filter_eq_nil_iff]
      intro m hm
      have hcont : m.parents.contains c.key = false := by
        rcases h2 : m.parents.contains c.key with _ | _
        · rfl
        · exact absurd ((contains_true_iff _ _).1 h2) (hleaf m hm)
      rw [hcont, Bool.false_and]
      simp
    rw [hfil]
    rfl
  dsimp only
  rw [hchild]
  simp

/-- The staggered slot the source computes for child number j. -/
def staggerSlot (cx cy : ℚ) (j : Nat) : ℚ × ℚ :=
  (cx + ((j / maxPerRow : Nat) : ℚ) * staggerOffset +
      ((j % maxPerRow : Nat) : ℚ) * (cardWidth + horizontalGap),
    cy + ((j / maxPerRow : Nat) : ℚ) * (cardHeight + 20))

/-- Running the staggered loop over children that are leaves of the graph
places child number j of the run exactly at its staggered slot and leaves
every other key untouched. -/
lemma runStagger_leaves (gt : String → ℚ) (nodes : List TNode) (fuel : Nat) (cx cy : ℚ) :
    ∀ (l : List TNode) (i : Nat) (st : LSt) (mch : ℚ),
      (∀ c ∈ l, ∀ m ∈ nodes, c.key ∉ m.parents) →
      (∀ c ∈ l, c.key ∉ st.positioned) →
      (l.map TNode.key).Nodup →
      ∃ out, runStagger (positionNodeAndChildren gt nodes (fuel + 1)) cx cy i l st mch =
          some out ∧
        (∀ j (hj : j < l.length),
          out.1.pos (l.get ⟨j, hj⟩).key = staggerSlot cx cy (i + j)) ∧
        (∀ k, (∀ c ∈ l, c.key ≠ k) → out.1.pos k = st.pos k) ∧
        (∀ c ∈ l, c.key ∈ out.1.positioned) ∧
        (∀ k, k ∈ st.positioned → k ∈ out.1.positioned) := by
  intro l
  induction l with
  | nil =>
    intro i st mch _ _ _
    exact ⟨(st, mch), rfl, fun j hj => absurd hj (Nat.not_lt_zero j),
      fun k _ => rfl, fun c hc => absurd hc (List.not_mem_nil c), fun k hk => hk⟩
  | cons c rest ih =>
    intro i st mch hleaf hunpos hnd
    have hc := posNC_leaf gt nodes fuel st c
      (cx + ((i / maxPerRow : Nat) : ℚ) * staggerOffset +
        ((i % maxPerRow : Nat) : ℚ) * (cardWidth + horizontalGap))
      (cy + ((i / maxPerRow : Nat) : ℚ) * (cardHeight + 20))
      (hunpos c (List.mem_cons_self _ _)) (hleaf c (List.mem_cons_self _ _))
    obtain ⟨out, hrun, hslots, hpres, hmem, hsub⟩ := ih (i + 1)
      ⟨setPos st.pos c.key
          (cx + ((i / maxPerRow : Nat) : ℚ) * staggerOffset +
            ((i % maxPerRow : Nat) : ℚ) * (cardWidth + horizontalGap),
            cy + ((i / maxPerRow : Nat) : ℚ) * (cardHeight + 20)),
        c.key :: st.positioned, max st.maxX (cx + ((i / maxPerRow : Nat) : ℚ) * staggerOffset +
          ((i % maxPerRow : Nat) : ℚ) * (cardWidth + horizontalGap) + cardWidth)⟩
      (max mch (cardHeight + ((i / maxPerRow : Nat) : ℚ) * (cardHeight + 20)))
      (fun d hd => hleaf d (List.mem_cons_of_mem _ hd))
      (fun d hd => by
        intro hdk
        rcases List.mem_cons.1 hdk with h2 | h2
        · exact (List.nodup_cons.1 hnd).1 (h2 ▸ List.mem_map_of_mem TNode.key hd)
        · exact hunpos d (List.mem_cons_of_mem _ hd) h2)
      (List.nodup_cons.1 hnd).2
    refine ⟨out, ?_, ?_, ?_, ?_, ?_⟩
    · simp only [runStagger]
      rw [hc]
      exact hrun
    · intro j hj
      cases j with
      | zero =>
        have hget : (((c :: rest).get ⟨0, hj⟩) : TNode) = c := rfl
        rw [hget, hpres c.key fun d hd he =>
          (List.nodup_cons.1 hnd).1 (he ▸ List.mem_map_of_mem TNode.key hd)]
        dsimp only
        rw [setPos_same, Nat.add_zero]
        rfl
      | succ j2 =>
        have hj2 : j2 < rest.length := by
          have := hj
          simp only [List.length_cons] at this
          omega
        have hget : (((c :: rest).get ⟨j2 + 1, hj⟩) : TNode) = rest.get ⟨j2, hj2⟩ := rfl
        rw [hget, hslots j2 hj2]
        have : i + 1 + j2 = i + (j2 + 1) := by omega
        rw [this]
    · intro k hk
      rw [hpres k fun d hd => hk d (List.mem_cons_of_mem _ hd)]
      dsimp only
      exact setPos_other _ _ _ _ fun he => hk c (List.mem_cons_self _ _) he.symm
    · intro d hd
      rcases List.mem_cons.1 hd with h2 | h2
      · exact h2 ▸ hsub _ (List.mem_cons_self _ _)
      · exact hmem d h2
    · intro k hk
      exact hsub k (List.mem_cons_of_mem _ hk)

lemma finishNode_pos_ne (st : LSt) (node : TNode) (x mch tcw : ℚ) (k : String)
    (h : k ≠ node.key) : (finishNode st node x mch tcw).1.pos k = st.pos k := by
  by_cases htc : tcw > cardWidth
  · rw [finishNode_fst_big htc]
    exact setPos_other _ _ _ _ h
  · rw [finishNode_fst_small htc]

/-- Evaluation of positionNodeAndChildren in the staggered branch, given
the children list and the result of the staggered loop. -/
lemma posNC_stagger_eval (gt : String → ℚ) (nodes : List TNode) (fuel : Nat) (s : LSt)
    (root : TNode) (x y : ℚ) (children : List TNode) (out : LSt × ℚ)
    (hpos : root.key ∉ s.positioned)
    (hcl : childList gt nodes ⟨setPos s.pos root.key (x, y), root.key :: s.positioned, s.maxX⟩
      root = children)
    (hbig : children.length > maxPerRow)
    (hrun : runStagger (positionNodeAndChildren gt nodes fuel) (x + childIndent)
      (y + verticalGap) 0 children
      ⟨setPos s.pos root.key (x, y), root.key :: s.positioned, s.maxX⟩ 0 = some out) :
    positionNodeAndChildren gt nodes (fuel + 1) s root x y =
      some (finishNode out.1 root x out.2 (staggerTotalWidth children.length)) := by
  rw [posNC_succ, if_neg hpos]
  dsimp only
  rw [hcl]
  have hne : ¬(children.length = 0) := by
    have := hbig
    rw [maxPerRow] at this
    omega
  rw [if_neg hne, if_pos hbig, hrun]

/-- C3. Fan-out staggering: on a graph of one root with more than
maxPerRow = 4 childless children (already in creation-time descending
order, distinct keys), child number j is laid out in row j / 4, column
j % 4: at x = rootX + childIndent + row * staggerOffset +
col * (cardWidth + horizontalGap) and y = rootY + verticalGap +
row * (cardHeight + 20) — each subsequent row shifted down by
cardHeight + 20 = 105 and right by staggerOffset = 40. In particular 6
children form two staggered rows of 4 and 2, row 2 down and right of
row 1. -/
theorem claim3_fanout_staggering (gt : String → ℚ) (root : TNode) (children : List TNode)
    (hroot : root.parents = [])
    (hch : ∀ c ∈ children, c.parents = [root.key])
    (hnd : ((root :: children).map TNode.key).Nodup)
    (hsorted : children.Pairwise fun a b => createdTime gt b ≤ createdTime gt a)
    (hbig : children.length > maxPerRow) :
    ∃ l, renderTreeLayout gt (root :: children) = some l ∧
      ∀ j (hj : j < children.length),
        l.pos (children.get ⟨j, hj⟩).key =
          (20 + childIndent + ((j / maxPerRow : Nat) : ℚ) * staggerOffset +
              ((j % maxPerRow : Nat) : ℚ) * (cardWidth + horizontalGap),
            20 + verticalGap + ((j / maxPerRow : Nat) : ℚ) * (cardHeight + 20)) := by
  have hndc : (root.key :: children.map TNode.key).Nodup := by
    rw [List.map_cons] at hnd
    exact hnd
  have hkeyne : ∀ c ∈ children, c.key ≠ root.key := by
    intro c hc he
    exact (List.nodup_cons.1 hndc).1 (he ▸ List.mem_map_of_mem TNode.key hc)
  have hfroot : (root :: children).filter (fun n => n.parents.isEmpty) = [root] := by
    rw [List.filter_cons_of_pos (by rw [hroot]; rfl)]
    rw [List.filter_eq_nil_iff.2 fun c hc => by rw [hch c hc]; simp]
  have hcl : childList gt (root :: children)
      ⟨setPos (fun _ => ((0 : ℚ), (0 : ℚ))) root.key (20, 20), [root.key], 0⟩ root =
      children := by
    rw [childList]
    have hfil : (root :: children).filter
        (fun c => c.parents.contains root.key &&
          !((((⟨setPos (fun _ => ((0 : ℚ), (0 : ℚ))) root.key (20, 20), [root.key], 0⟩ :
            LSt)).positioned).contains c.key)) = children := by
      rw [List.filter_cons_of_neg (by rw [hroot]; simp)]
      rw [List.filter_eq_self]
      intro c hc
      rw [hch c hc]
      have hck : (([root.key] : List String).contains c.key) = false := by
        rcases h2 : ([root.key] : List String).contains c.key with _ | _
        · rfl
        · have := (contains_true_iff _ _).1 h2
          rcases List.mem_cons.1 this with h3 | h3
          · exact absurd h3 (hkeyne c hc)
          · cases h3
      rw [hck]
      simp
    rw [hfil, sortByTimeDesc_of_sorted gt children hsorted]
  have hleaf : ∀ c ∈ children, ∀ m ∈ root :: children, c.key ∉ m.parents := by
    intro c hc m hm
    rcases List.mem_cons.1 hm with h2 | h2
    · rw [h2, hroot]
      exact List.not_mem_nil _
    · rw [hch m h2]
      intro h3
      rcases List.mem_cons.1 h3 with h4 | h4
      · exact hkeyne c hc h4
      · cases h4
  have hunpos : ∀ c ∈ children, c.key ∉ ([root.key] : List String) := by
    intro c hc h
    rcases List.mem_cons.1 h with h2 | h2
    · exact hkeyne c hc h2
    · cases h2
  obtain ⟨out, hrun, hslots, hpres, hmem, hsub⟩ :=
    runStagger_leaves gt (root :: children) children.length (20 + childIndent)
      (20 + verticalGap) children 0
      ⟨setPos (fun _ => ((0 : ℚ), (0 : ℚ))) root.key (20, 20), [root.key], 0⟩ 0
      hleaf (fun c hc => hunpos c hc) (List.nodup_cons.1 hndc).2
  have heval := posNC_stagger_eval gt (root :: children) (children.length + 1)
    ⟨fun _ => ((0 : ℚ), (0 : ℚ)), [], 0⟩ root 20 20 children out
    (List.not_mem_nil _) hcl hbig hrun
  have hrp : rootsPass gt (root :: children) =
      some ((finishNode out.1 root 20 out.2 (staggerTotalWidth children.length)).1,
        20 + (finishNode out.1 root 20 out.2 (staggerTotalWidth children.length)).2.1 +
          horizontalGap * 2) := by
    rw [rootsPass]
    rw [hfroot, List.foldl_cons, List.foldl_nil, rootStep]
    rw [show ((root :: children).length + 1) = children.length + 1 + 1 from by simp]
    simp only [Option.some_bind]
    rw [heval, Option.map_some']
  refine ⟨_, by rw [renderTreeLayout, hrp, Option.map_some'], ?_⟩
  intro j hj
  have hjc : children.get ⟨j, hj⟩ ∈ children := List.get_mem children j hj
  have hjkey : (children.get ⟨j, hj⟩).key ∈
      (finishNode out.1 root 20 out.2 (staggerTotalWidth children.length)).1.positioned := by
    rw [finishNode_positioned]
    exact hmem _ hjc
  dsimp only
  rw [placeOrphans_pos_ne]
  · rw [finishNode_pos_ne _ _ _ _ _ _ (hkeyne _ hjc)]
    have := hslots j hj
    rw [Nat.zero_add] at this
    exact this
  · intro o ho he
    have h2 := (List.mem_filter.1 ho).2
    exact (not_contains_iff _ _).1 h2 (he ▸ hjkey)

/-- Root of the concrete six-child fan graph. -/
def fanRoot : TNode := mkNode "root.html" 0 false []

/-- The six childless children of the concrete fan graph, in
creation-time order (all empty created strings). -/
def fanChildren : List TNode :=
  [mkNode "c0.html" 1 false ["root.html"], mkNode "c1.html" 1 false ["root.html"],
    mkNode "c2.html" 1 false ["root.html"], mkNode "c3.html" 1 false ["root.html"],
    mkNode "c4.html" 1 false ["root.html"], mkNode "c5.html" 1 false ["root.html"]]

theorem claim3_fanout_staggering_witness :
    (fanRoot.parents = [] ∧ (∀ c ∈ fanChildren, c.parents = [fanRoot.key]) ∧
        ((fanRoot :: fanChildren).map TNode.key).Nodup ∧
        fanChildren.Pairwise (fun a b => createdTime gtZero b ≤ createdTime gtZero a) ∧
        fanChildren.length > maxPerRow) ∧
      (∃ l, renderTreeLayout gtZero (fanRoot :: fanChildren) = some l ∧
        ∀ j (hj : j < fanChildren.length),
          l.pos (fanChildren.get ⟨j, hj⟩).key =
            (20 + childIndent + ((j / maxPerRow : Nat) : ℚ) * staggerOffset +
                ((j % maxPerRow : Nat) : ℚ) * (cardWidth + horizontalGap),
              20 + verticalGap + ((j / maxPerRow : Nat) : ℚ) * (cardHeight + 20))) :=
  ⟨⟨rfl, by decide, by decide, by with_unfolding_all decide, by decide⟩,
    claim3_fanout_staggering gtZero fanRoot fanChildren rfl (by decide) (by decide)
      (by with_unfolding_all decide) (by decide)⟩

end Resumaker
